import Mathlib

/-!
Verification development for the heuristic per-function complexity
extraction pipeline of the SE2 metrics repository (cc.py, halstead.py,
dfc.py, dfc_lizard.py).  Source texts are modelled as `List Char`; the
Python regular-expression passes are modelled as explicit character
scanners with the same match semantics (leftmost, non-overlapping,
greedy or lazy exactly as in the source patterns).  Scanners that can
skip more than one character per step take an explicit fuel argument
(always called with the length of the list, which is sufficient), so
that every definition is executable and kernel-reducible.
-/

/-- ASCII word character, the model of the `\w` class and of the
characters relevant to the `\b` word boundary of Python regexes over
source code. -/
def isWordChar (c : Char) : Bool := c.isAlpha || c.isDigit || c = '_'

/-- Word-character test on an optional character (`none` stands for
text boundary, which is a non-word position). -/
def wordCharOpt : Option Char → Bool
  | none => false
  | some c => isWordChar c

/-- Number of newline characters in a text, i.e. its line count minus 1. -/
def countNL (l : List Char) : Nat := l.count '\n'

/-! ### Lexical stripper (cc.py `_strip_comments_and_strings`,
halstead.py `strip_comments_and_strings`)

Each regex substitution pass of the source becomes one scanner.  The
string/char literal pass models `re.sub(r'"(\\.|[^"\\])*"', repl, code)`:
at an opening quote the regex engine deterministically munches
`\\.`-pairs and non-quote non-backslash characters (newlines included,
since the negated class matches them even without `re.S`) until the
closing quote; if the end of text, or (without `re.S`) a backslash
before a newline, is reached first, no match starts at that quote
(backtracking cannot help, because no munched element ends right before
a quote). -/

/-- Find the end of a string/char literal opened by `q`, returning the
text after the closing quote.  `dotall` tells whether the `\\.` escape
element may consume a newline (the `re.S` flag of the source pattern). -/
def findLitEndAux (dotall : Bool) (q : Char) : Nat → List Char → Option (List Char)
  | 0, _ => none
  | _ + 1, [] => none
  | fuel + 1, c :: rest =>
    if c = q then some rest
    else if c = '\\' then
      match rest with
      | [] => none
      | d :: rest2 => if dotall || !(d = '\n') then findLitEndAux dotall q fuel rest2 else none
    else findLitEndAux dotall q fuel rest

def findLitEnd (dotall : Bool) (q : Char) (l : List Char) : Option (List Char) :=
  findLitEndAux dotall q l.length l

/-- One literal-stripping pass: each matched `q...q` literal is replaced
by `repl` (the source uses `""`, `''` or the empty string). -/
def stripLitsAux (dotall : Bool) (q : Char) (repl : List Char) : Nat → List Char → List Char
  | 0, l => l
  | _ + 1, [] => []
  | fuel + 1, c :: rest =>
    if c = q then
      match findLitEnd dotall q rest with
      | some rem => repl ++ stripLitsAux dotall q repl fuel rem
      | none => c :: stripLitsAux dotall q repl fuel rest
    else c :: stripLitsAux dotall q repl fuel rest

def stripLits (dotall : Bool) (q : Char) (repl : List Char) (l : List Char) : List Char :=
  stripLitsAux dotall q repl l.length l

/-- Consume the rest of a `//` comment: everything up to (excluding) the
next newline, mirroring that `.` does not match `\n` in `//.*`. -/
def dropLineComment : List Char → List Char
  | [] => []
  | c :: rest => if c = '\n' then c :: rest else dropLineComment rest

/-- The `re.sub(r'//.*', '', code)` pass. -/
def stripLineCommentsAux : Nat → List Char → List Char
  | 0, l => l
  | _ + 1, [] => []
  | fuel + 1, c :: rest =>
    if c = '/' ∧ rest.head? = some '/' then stripLineCommentsAux fuel (dropLineComment rest.tail)
    else c :: stripLineCommentsAux fuel rest

def stripLineComments (l : List Char) : List Char := stripLineCommentsAux l.length l

/-- Find the first `*/` and return the text after it (the non-greedy
`.*?\*/` with `re.S`); `none` when no `*/` follows. -/
def findBlockEndAux : Nat → List Char → Option (List Char)
  | 0, _ => none
  | _ + 1, [] => none
  | fuel + 1, c :: rest =>
    if c = '*' ∧ rest.head? = some '/' then some rest.tail
    else findBlockEndAux fuel rest

def findBlockEnd (l : List Char) : Option (List Char) := findBlockEndAux l.length l

/-- The `re.sub(r'/\*.*?\*/', '', code, flags=re.S)` pass.  When a `/*`
has no closing `*/` anywhere after it, the pattern does not match there
(and cannot match later either), so the text passes through unchanged. -/
def stripBlockCommentsAux : Nat → List Char → List Char
  | 0, l => l
  | _ + 1, [] => []
  | fuel + 1, c :: rest =>
    if c = '/' ∧ rest.head? = some '*' then
      match findBlockEnd rest.tail with
      | some rem => stripBlockCommentsAux fuel rem
      | none => c :: stripBlockCommentsAux fuel rest
    else c :: stripBlockCommentsAux fuel rest

def stripBlockComments (l : List Char) : List Char := stripBlockCommentsAux l.length l

/-- cc.py `_strip_comments_and_strings`: string literals (replaced by
`""`, with `re.S`), then char literals (replaced by `''`, with `re.S`),
then `//` comments, then `/*...*/` comments. -/
def cc_strip (code : List Char) : List Char :=
  stripBlockComments (stripLineComments
    (stripLits true '\'' ['\'', '\''] (stripLits true '"' ['"', '"'] code)))

/-- halstead.py `strip_comments_and_strings`: `//` comments, then
`/*...*/` comments, then string literals (removed, no `re.S`), then
char literals (removed, no `re.S`). -/
def halstead_strip (code : List Char) : List Char :=
  stripLits false '\'' [] (stripLits false '"' []
    (stripBlockComments (stripLineComments code)))

/-! ### Decision-point counter (cc.py `find_functions_in_file`, lines 150-163) -/

/-- Count positions where the keyword `w` occurs as a whole word
(`len(re.findall(r'\bif\b', body))` etc.): the previous character (if
any) and the character right after the occurrence (if any) are not word
characters.  For the all-word-character keywords of the source, two
such occurrences can never overlap, so counting boundary positions
agrees with the non-overlapping `findall` count. -/
def countWordAux (w : List Char) : Bool → List Char → Nat
  | _, [] => 0
  | prevWord, c :: rest =>
    (if !prevWord ∧ w.isPrefixOf (c :: rest) ∧
        !(wordCharOpt ((c :: rest).drop w.length).head?) then 1 else 0)
      + countWordAux w (isWordChar c) rest

def countWord (w l : List Char) : Nat := countWordAux w false l

/-- Count non-overlapping occurrences of a substring, left to right
(Python `str.count`). -/
def countSubAux (t : List Char) : Nat → List Char → Nat
  | 0, _ => 0
  | _ + 1, [] => 0
  | fuel + 1, c :: rest =>
    if t.isPrefixOf (c :: rest) then 1 + countSubAux t fuel ((c :: rest).drop t.length)
    else countSubAux t fuel rest

def countSub (t l : List Char) : Nat := countSubAux t l.length l

/-- The decision points counted inside a function body (cc.py lines
151-161): whole-word `if`, `for`, `while`, `case`, `catch`, plus each
`?` character and each `&&` and `||` substring. -/
def decisionPoints (body : List Char) : Nat :=
  countWord (String.toList "if") body
    + countWord (String.toList "for") body
    + countWord (String.toList "while") body
    + countWord (String.toList "case") body
    + countWord (String.toList "catch") body
    + body.count '?'
    + countSub (String.toList "&&") body
    + countSub (String.toList "||") body

/-- cc.py line 163: `cc = decisions + 1`. -/
def cyclomatic (body : List Char) : Nat := decisionPoints body + 1

/-! ### A small backtracking regex engine for the function-header pattern

cc.py line 121 compiles
`([A-Za-z_~][\w:\*<>,\s\&\(\)\[\]]*?)\s+([A-Za-z_~][\w:]*)\s*\([^;{]*\)\s*(?:const\s*)?(?:->\s*[A-Za-z_][\w:]*)?\s*\{`
(the `re.M` flag only affects `^`/`$`, which do not occur).  Every
repetition in this pattern is over a single character class, so a regex
term with character-class stars (greedy or lazy), literals, optional
groups and sequencing is enough.  The matcher below explores
alternatives in exactly Python's backtracking order. -/

inductive RE where
  | eps : RE
  | lit : Char → RE
  | cls : (Char → Bool) → RE
  | star : (Char → Bool) → Bool → RE
  | opt : RE → RE
  | seq : RE → RE → RE

/-- First success of `f` over a list of candidates. -/
def firstSome (f : α → Option β) : List α → Option β
  | [] => none
  | x :: xs =>
    match f x with
    | some v => some v
    | none => firstSome f xs

/-- CPS backtracking matcher: try to match `re` at the front of `s`,
passing each candidate remainder to the continuation `k` in Python's
backtracking order, returning the first overall success.  `star p lazy`
tries shorter prefixes first when `lazy` (the `*?` of the pattern) and
longer ones first otherwise. -/
def matchRE : RE → List Char → (List Char → Option (List Char)) → Option (List Char)
  | .eps, s, k => k s
  | .lit c, s, k =>
    match s with
    | [] => none
    | c1 :: rest => if c1 = c then k rest else none
  | .cls p, s, k =>
    match s with
    | [] => none
    | c1 :: rest => if p c1 then k rest else none
  | .star p lazy, s, k =>
    let n := (s.takeWhile p).length
    let idxs := List.range (n + 1)
    firstSome (fun i => k (s.drop i)) (if lazy then idxs else idxs.reverse)
  | .opt r, s, k =>
    match matchRE r s k with
    | some v => some v
    | none => k s
  | .seq a b, s, k => matchRE a s fun s1 => matchRE b s1 k

/-- Sequence a nonempty list of regex terms, keeping the last term in
tail position (so that `endsWithConsuming` below sees it). -/
def seqs : List RE → RE
  | [] => .eps
  | [r] => r
  | r :: rs => .seq r (seqs rs)

/-- A regex whose last element is a literal or a single-character class
consumes at least one character in any successful match. -/
def endsWithConsuming : RE → Bool
  | .lit _ => true
  | .cls _ => true
  | .seq _ b => endsWithConsuming b
  | _ => false

def pySpace (c : Char) : Bool :=
  c = ' ' || c = '\t' || c = '\n' || c = '\r' || c = '\x0b' || c = '\x0c'

/-- `[A-Za-z_~]`. -/
def hdrStart (c : Char) : Bool := c.isAlpha || c = '_' || c = '~'

/-- `[\w:\*<>,\s\&\(\)\[\]]`. -/
def hdrBodyChar (c : Char) : Bool :=
  isWordChar c || c = ':' || c = '*' || c = '<' || c = '>' || c = ',' ||
    c = '&' || c = '(' || c = ')' || c = '[' || c = ']' || pySpace c

/-- `[\w:]`. -/
def nameChar (c : Char) : Bool := isWordChar c || c = ':'

/-- `[^;{]`. -/
def paramChar (c : Char) : Bool := !(c = ';') && !(c = '{')

/-- `[A-Za-z_]` (after `->`). -/
def arrowStart (c : Char) : Bool := c.isAlpha || c = '_'

/-- The compiled form of cc.py's `func_pattern`. -/
def funcPattern : RE := seqs [
  .cls hdrStart,
  .star hdrBodyChar true,
  .cls pySpace, .star pySpace false,
  .cls hdrStart,
  .star nameChar false,
  .star pySpace false,
  .lit '(',
  .star paramChar false,
  .lit ')',
  .star pySpace false,
  .opt (seqs [.lit 'c', .lit 'o', .lit 'n', .lit 's', .lit 't', .star pySpace false]),
  .opt (seqs [.lit '-', .lit '>', .star pySpace false, .cls arrowStart, .star nameChar false]),
  .star pySpace false,
  .lit '{']

/-- `re.finditer`: scan left to right; at each position try a match; on
success record `(start, end)` and continue at the match end (bumping by
one position if the match were empty, as Python does); on failure
advance one position. -/
def finditerAux (re : RE) : Nat → List Char → Nat → List (Nat × Nat)
  | 0, _, _ => []
  | _ + 1, [], _ => []
  | fuel + 1, s@(_ :: rest), pos =>
    match matchRE re s some with
    | some rem =>
      let e := pos + (s.length - rem.length)
      if rem.length < s.length then (pos, e) :: finditerAux re fuel rem e
      else (pos, e) :: finditerAux re fuel rest (pos + 1)
    | none => finditerAux re fuel rest (pos + 1)

def finditer (re : RE) (s : List Char) : List (Nat × Nat) :=
  finditerAux re (s.length + 1) s 0

/-! ### Function-boundary locator (cc.py `find_functions_in_file`) -/

/-- The brace scan of cc.py lines 126-140: walk from the opening brace
index with a running balance (`{` is +1, `}` is -1); the index where
the balance returns to zero after a `}` is the closing brace; `none`
when the end of text is reached first. -/
def scanCloseAux : List Char → Nat → Int → Option Nat
  | [], _, _ => none
  | c :: rest, idx, bal =>
    if c = '{' then scanCloseAux rest (idx + 1) (bal + 1)
    else if c = '}' then
      if bal - 1 = 0 then some idx else scanCloseAux rest (idx + 1) (bal - 1)
    else scanCloseAux rest (idx + 1) bal

structure FunctionRecord where
  filename : String
  function_start : Nat
  function_end : Nat
  cc : Nat
deriving DecidableEq

/-- cc.py lines 117-172, on the file content: strip comments and
strings, find header matches, and for each match whose brace scan
succeeds emit a record; a match whose balance never returns to zero is
dropped (`filterMap` returns `none` for it).  Line numbers are one plus
the number of newlines before the match start / the closing brace, and
the body handed to the decision counter is the text strictly between
the header's opening brace and the closing brace. -/
def find_functions_in_code (filename : String) (content : List Char) : List FunctionRecord :=
  let code := cc_strip content
  (finditer funcPattern code).filterMap fun me =>
    match scanCloseAux (code.drop (me.2 - 1)) (me.2 - 1) 0 with
    | none => none
    | some closeIdx =>
      some { filename := filename
             function_start := countNL (code.take me.1) + 1
             function_end := countNL (code.take closeIdx) + 1
             cc := decisionPoints ((code.take closeIdx).drop me.2) + 1 }

/-- cc.py `find_functions_in_file` with the file read modelled as an
optional content: `_read_file_with_fallback` returning `None` (an
unreadable file) yields the empty record list. -/
def find_functions_in_file (filename : String) (content : Option (List Char)) :
    List FunctionRecord :=
  match content with
  | none => []
  | some code => find_functions_in_code filename code

structure CCMetrics where
  total_cc : Nat
  files_count : Nat
  details : List FunctionRecord

/-- cc.py `project.get_cc_metrics`, on the stream of matching files the
directory walk produces (each with its optional content; a file whose
read or scan raised is the same as one with no records).  Only a file
with a nonempty record list (`if recs:`) contributes its records to
`details`, their complexities to `total_cc`, and 1 to `files_count`. -/
def get_cc_metrics (files : List (String × Option (List Char))) : CCMetrics :=
  files.foldl
    (fun acc file =>
      let recs := find_functions_in_file file.1 file.2
      if recs.isEmpty then acc
      else { total_cc := acc.total_cc + (recs.map (fun r => r.cc)).sum
             files_count := acc.files_count + 1
             details := acc.details ++ recs })
    { total_cc := 0, files_count := 0, details := [] }


/-! ### Halstead tokenizer and metrics (halstead.py)

`tokenize_source` iterates over `sorted(OPERATORS, key=len, reverse=True)`:
the operator regex patterns ordered by decreasing *pattern-string*
length, ties keeping the original list order (Python's sort is stable).
Each pattern is a literal token; a pass records every non-overlapping
occurrence and replaces it by a single space.  The resulting order is
`++ += || *=` then `-- -> . :: -= /= %= + * == != <= >= && | ^ << >> ?
( ) { } [ ]` then `- / % = < > ! & ~ : ; ,`. -/

/-- One operator pass: count the non-overlapping occurrences of the
token (the `re.findall` matches) and replace each by a space
(`re.sub(op, " ", code)`). -/
def replaceCountAux (t : List Char) : Nat → List Char → Nat × List Char
  | 0, l => (0, l)
  | _ + 1, [] => (0, [])
  | fuel + 1, c :: rest =>
    if t.isPrefixOf (c :: rest) then
      let r := replaceCountAux t fuel ((c :: rest).drop t.length)
      (r.1 + 1, ' ' :: r.2)
    else
      let r := replaceCountAux t fuel rest
      (r.1, c :: r.2)

def replaceCount (t l : List Char) : Nat × List Char := replaceCountAux t l.length l

/-- The tokens before `"."` in the sorted operator order. -/
def opTokensPre : List (List Char) :=
  [String.toList "++", String.toList "+=", String.toList "||", String.toList "*=",
   String.toList "--", String.toList "->"]

/-- The tokens after `"."` in the sorted operator order. -/
def opTokensPost : List (List Char) :=
  [String.toList "::", String.toList "-=", String.toList "/=", String.toList "%=",
   String.toList "+", String.toList "*", String.toList "==", String.toList "!=",
   String.toList "<=", String.toList ">=", String.toList "&&", String.toList "|",
   String.toList "^", String.toList "<<", String.toList ">>", String.toList "?",
   String.toList "(", String.toList ")", String.toList "\x7b", String.toList "\x7d",
   String.toList "[", String.toList "]",
   String.toList "-", String.toList "/", String.toList "%", String.toList "=",
   String.toList "<", String.toList ">", String.toList "!", String.toList "&",
   String.toList "~", String.toList ":", String.toList ";", String.toList ","]

/-- `sorted(OPERATORS, key=len, reverse=True)` as literal tokens. -/
def opTokensSorted : List (List Char) := opTokensPre ++ String.toList "." :: opTokensPost

/-- The operator-removal loop of `tokenize_source`: each pass extends
the found-operators list by one copy of the token per match and updates
the working text. -/
def tokenize_operators (code : List Char) : List (List Char) × List Char :=
  opTokensSorted.foldl
    (fun acc t =>
      let r := replaceCount t acc.2
      (acc.1 ++ List.replicate r.1 t, r.2))
    ([], code)

/-- `[_a-zA-Z]`. -/
def isIdentStart (c : Char) : Bool := c.isAlpha || c = '_'

/-- `IDENTIFIER.findall`: `\b[_a-zA-Z][_a-zA-Z0-9]*\b`.  A match starts
at an identifier-start character preceded by a non-word position and
greedily takes the maximal word-character run (after which the trailing
`\b` holds automatically). -/
def identsAux : Nat → Bool → List Char → List (List Char)
  | 0, _, _ => []
  | _ + 1, _, [] => []
  | fuel + 1, prevWord, c :: rest =>
    if !prevWord ∧ isIdentStart c then
      (c :: rest.takeWhile isWordChar) :: identsAux fuel true (rest.dropWhile isWordChar)
    else identsAux fuel (isWordChar c) rest

def findIdentifiers (l : List Char) : List (List Char) := identsAux l.length false l

/-- `NUMBER.finditer`: `\b\d+(?:\.\d+)?\b`.  At a digit preceded by a
non-word position, `\d+` greedily takes the maximal digit run `ip`.
If a `.` plus at least one digit follows, the fractional run `fp` is
taken greedily; the trailing `\b` then requires a non-word position
after `fp` - if a word character follows, every shorter nonempty `fp`
also ends before a digit, so the optional group backtracks away and
the match is `ip` alone (the `.` after `ip` satisfies `\b`).  If no
fractional part exists the match is `ip`, provided the character after
`ip` is not a word character (otherwise no match starts here, and the
positions inside `ip` all fail the leading `\b`). -/
def numsAux : Nat → Bool → List Char → List (List Char)
  | 0, _, _ => []
  | _ + 1, _, [] => []
  | fuel + 1, prevWord, c :: rest =>
    if !prevWord ∧ c.isDigit then
      let ip := c :: rest.takeWhile Char.isDigit
      let r1 := rest.dropWhile Char.isDigit
      if r1.head? = some '.' then
        let fp := r1.tail.takeWhile Char.isDigit
        let r3 := r1.tail.dropWhile Char.isDigit
        if fp.isEmpty then ip :: numsAux fuel true r1
        else if wordCharOpt r3.head? then ip :: numsAux fuel true r1
        else (ip ++ '.' :: fp) :: numsAux fuel true r3
      else
        if wordCharOpt r1.head? then numsAux fuel true r1
        else ip :: numsAux fuel true r1
    else numsAux fuel (isWordChar c) rest

def findNumbers (l : List Char) : List (List Char) := numsAux l.length false l

/-- halstead.py `tokenize_source`: strip comments and strings, remove
operators (recording them), then collect identifier and number operands
from what remains (identifiers first, then numbers, as in the source). -/
def tokenize_source (code : List Char) : List (List Char) × List (List Char) :=
  let stripped := halstead_strip code
  let opsRes := tokenize_operators stripped
  (opsRes.1, findIdentifiers opsRes.2 ++ findNumbers opsRes.2)

structure HalsteadMetrics where
  n1 : Nat
  n2 : Nat
  N1 : Nat
  N2 : Nat
  vocabulary : Nat
  length : Nat
  volume : Real
  difficulty : Real
  effort : Real
  time : Real
  bugs : Real

/-- halstead.py `compute_halstead`.  The Python floats are modelled as
real numbers; `math.log2` is `Real.logb 2`. -/
noncomputable def compute_halstead (operators operands : List (List Char)) : HalsteadMetrics :=
  let n1 := operators.dedup.length
  let n2 := operands.dedup.length
  let N1 := operators.length
  let N2 := operands.length
  let vocabulary := n1 + n2
  let length := N1 + N2
  let volume : Real :=
    if 0 < vocabulary ∧ 0 < length then (length : Real) * Real.logb 2 (vocabulary : Real) else 0
  let difficulty : Real :=
    if 0 < n2 then ((n1 : Real) / 2) * ((N2 : Real) / (n2 : Real)) else 0
  let effort := difficulty * volume
  let time : Real := if 0 < effort then effort / 18 else 0
  let bugs : Real := if 0 < volume then volume / 3000 else 0
  { n1 := n1, n2 := n2, N1 := N1, N2 := N2, vocabulary := vocabulary, length := length
    volume := volume, difficulty := difficulty, effort := effort, time := time, bugs := bugs }

/-! ### Data-flow analyzer, strategy A (dfc.py) -/

/-- A C expression as visited by `DataFlowAnalyzer` (pycparser nodes
relevant to defs/uses: identifiers, constants, and compound nodes whose
children the generic visitor recurses into). -/
inductive CExpr where
  | id : String → CExpr
  | const : Nat → CExpr
  | unop : String → CExpr → CExpr
  | binop : String → CExpr → CExpr → CExpr

/-- A basic block of dfc.py: the `{"defs": set(), "uses": set()}`
dictionary. -/
@[ext]
structure Block where
  defs : Finset String
  uses : Finset String
deriving DecidableEq

/-- The identifiers referenced in an expression (the names `visit_ID`
sees while the generic visitor recurses). -/
def exprIds : CExpr → Finset String
  | .id n => {n}
  | .const _ => ∅
  | .unop _ e => exprIds e
  | .binop _ a b => exprIds a ∪ exprIds b

/-- dfc.py `visit_ID`: every identifier occurrence is added to the
current block's use set, unconditionally. -/
def dfc_visit_ID (b : Block) (n : String) : Block :=
  { b with uses := insert n b.uses }

/-- The generic visit of an expression in dfc.py: each identifier
occurrence goes through `visit_ID`. -/
def dfc_visitExpr (b : Block) : CExpr → Block
  | .id n => dfc_visit_ID b n
  | .const _ => b
  | .unop _ e => dfc_visitExpr b e
  | .binop _ e1 e2 => dfc_visitExpr (dfc_visitExpr b e1) e2

/-- dfc.py `visit_Assignment` (lines 20-25): when the lvalue is a plain
identifier its name is added to `defs`, then the rvalue is visited to
capture the uses. -/
def dfc_visit_Assignment (b : Block) (lvalue rvalue : CExpr) : Block :=
  let b1 := match lvalue with
    | .id n => { b with defs := insert n b.defs }
    | _ => b
  dfc_visitExpr b1 rvalue

/-- The transformer the specification describes: visit the rvalue
first, then record the def for a simple-name target. -/
def uses_first_Assignment (b : Block) (lvalue rvalue : CExpr) : Block :=
  let b1 := dfc_visitExpr b rvalue
  match lvalue with
  | .id n => { b1 with defs := insert n b1.defs }
  | _ => b1

/-- dfc_pycparser_backup.py `visit_ID` (lines 54-58): an identifier is
recorded as a use only when its name is not already in the current
block's def set. -/
def bk_visit_ID (b : Block) (n : String) : Block :=
  if n ∈ b.defs then b else { b with uses := insert n b.uses }

/-- The generic visit of an expression in dfc_pycparser_backup.py. -/
def bk_visitExpr (b : Block) : CExpr → Block
  | .id n => bk_visit_ID b n
  | .const _ => b
  | .unop _ e => bk_visitExpr b e
  | .binop _ e1 e2 => bk_visitExpr (bk_visitExpr b e1) e2

/-- dfc_pycparser_backup.py `visit_Assignment` (lines 46-52): the
rvalue is visited first to capture the uses, then the definition is
recorded when the lvalue is a plain identifier. -/
def bk_visit_Assignment (b : Block) (lvalue rvalue : CExpr) : Block :=
  let b1 := bk_visitExpr b rvalue
  match lvalue with
  | .id n => { b1 with defs := insert n b1.defs }
  | _ => b1

/-! ### Data-flow analyzer fallback tiers (dfc.py `analyze_file`,
`analyze_directory`)

The parsers behind the three tiers (pycparser's `CParser`, `parse_file`
with the system preprocessor, and a `cpp` subprocess) are external
libraries, so a tier is modelled by its outcome: `none` when parsing
raised, `some (dfc, blocks)` for the result `compute_data_flow_complexity`
produced on the parsed AST.  Tier 3 distinguishes the subprocess
failing (`none`) from the subprocess succeeding but the reparse raising
(`some none`). -/

/-- dfc.py lines 150-164: the subprocess tier.  A successful reparse
returns its result (even with no blocks); a failed reparse, a failed
subprocess, or no output, returns zero metrics. -/
def dfc_tier3 (t3 : Option (Option (Nat × List Block))) : Nat × List Block :=
  match t3 with
  | some (some r) => r
  | some none => (0, [])
  | none => (0, [])

/-- dfc.py lines 132-148 then 150-164: the preprocessed-parse tier; its
result is returned only when it produced at least one block. -/
def dfc_tier23 (t2 : Option (Nat × List Block)) (t3 : Option (Option (Nat × List Block))) :
    Nat × List Block :=
  match t2 with
  | some r => if r.2.isEmpty then dfc_tier3 t3 else r
  | none => dfc_tier3 t3

/-- dfc.py `analyze_file` (lines 110-164): raw parse first (used only
when it produced blocks), then the preprocessed parse, then the
subprocess tier.  The function is total: no outcome raises. -/
def dfc_analyze_file (t1 t2 : Option (Nat × List Block))
    (t3 : Option (Option (Nat × List Block))) : Nat × List Block :=
  match t1 with
  | some r => if r.2.isEmpty then dfc_tier23 t2 t3 else r
  | none => dfc_tier23 t2 t3

/-- dfc.py `analyze_directory` (lines 167-191) on the stream of
matching files, each given by its tier outcomes: every file adds its
dfc, its block count, and 1 to the files tally, whatever the outcome. -/
def dfc_analyze_directory
    (files : List (Option (Nat × List Block) × Option (Nat × List Block) ×
      Option (Option (Nat × List Block)))) : Nat × Nat × Nat :=
  files.foldl
    (fun acc f =>
      let r := dfc_analyze_file f.1 f.2.1 f.2.2
      (acc.1 + r.1, acc.2.1 + 1, acc.2.2 + r.2.length))
    (0, 0, 0)

/-! ### Data-flow analyzer, strategy B (dfc_lizard.py) -/

/-- dfc_lizard.py `estimate_dfc_from_function`: from the function's
parameter count and cyclomatic complexity. -/
def estimate_dfc_from_function (param_flow cyclomatic_complexity : Int) : Int :=
  let control_flow := max 0 (cyclomatic_complexity - 1)
  param_flow * control_flow + control_flow

/-! ### Lemmas: the stripper never increases the newline count -/

theorem countNL_cons (c : Char) (l : List Char) :
    countNL (c :: l) = countNL l + (if c = '\n' then 1 else 0) := by
  simp [countNL, List.count_cons]

theorem countNL_le_cons (c : Char) (l : List Char) : countNL l ≤ countNL (c :: l) := by
  rw [countNL_cons]; omega

theorem countNL_append (a b : List Char) : countNL (a ++ b) = countNL a + countNL b := by
  simp [countNL, List.count_append]

theorem countNL_tail (l : List Char) : countNL l.tail ≤ countNL l := by
  cases l with
  | nil => simp
  | cons c rest => exact countNL_le_cons c rest

theorem findLitEndAux_countNL (d : Bool) (q : Char) :
    ∀ fuel l rem, findLitEndAux d q fuel l = some rem → countNL rem ≤ countNL l := by
  intro fuel
  induction fuel with
  | zero => intro l rem h; simp [findLitEndAux] at h
  | succ n ih =>
    intro l rem h
    match l with
    | [] => simp [findLitEndAux] at h
    | c :: rest =>
      simp only [findLitEndAux] at h
      split at h
      · exact Option.some_inj.mp h ▸ countNL_le_cons c rest
      · split at h
        · match rest with
          | [] => exact absurd h (by simp)
          | d1 :: rest2 =>
            simp only at h
            split at h
            · exact le_trans (le_trans (ih rest2 rem h) (countNL_le_cons d1 rest2))
                (countNL_le_cons c (d1 :: rest2))
            · exact absurd h (by simp)
        · exact le_trans (ih rest rem h) (countNL_le_cons c rest)

theorem findLitEnd_countNL (d : Bool) (q : Char) (l rem : List Char)
    (h : findLitEnd d q l = some rem) : countNL rem ≤ countNL l :=
  findLitEndAux_countNL d q l.length l rem h

theorem stripLitsAux_countNL (d : Bool) (q : Char) (repl : List Char)
    (hrepl : countNL repl = 0) :
    ∀ fuel l, countNL (stripLitsAux d q repl fuel l) ≤ countNL l := by
  intro fuel
  induction fuel with
  | zero => intro l; simp [stripLitsAux]
  | succ n ih =>
    intro l
    match l with
    | [] => simp [stripLitsAux]
    | c :: rest =>
      simp only [stripLitsAux]
      split
      · match hfind : findLitEnd d q rest with
        | some rem =>
          simp only [hfind]
          rw [countNL_append, hrepl]
          exact le_trans (by simpa using le_trans (ih rem) (findLitEnd_countNL d q rest rem hfind))
            (countNL_le_cons c rest)
        | none =>
          simp only [hfind]
          rw [countNL_cons, countNL_cons]
          exact Nat.add_le_add_right (ih rest) _
      · rw [countNL_cons, countNL_cons]
        exact Nat.add_le_add_right (ih rest) _

theorem stripLits_countNL (d : Bool) (q : Char) (repl : List Char)
    (hrepl : countNL repl = 0) (l : List Char) :
    countNL (stripLits d q repl l) ≤ countNL l :=
  stripLitsAux_countNL d q repl hrepl l.length l

theorem dropLineComment_countNL (l : List Char) : countNL (dropLineComment l) ≤ countNL l := by
  induction l with
  | nil => simp [dropLineComment]
  | cons c rest ih =>
    simp only [dropLineComment]
    split
    · exact le_refl _
    · exact le_trans ih (countNL_le_cons c rest)

theorem stripLineCommentsAux_countNL :
    ∀ fuel l, countNL (stripLineCommentsAux fuel l) ≤ countNL l := by
  intro fuel
  induction fuel with
  | zero => intro l; simp [stripLineCommentsAux]
  | succ n ih =>
    intro l
    match l with
    | [] => simp [stripLineCommentsAux]
    | c :: rest =>
      simp only [stripLineCommentsAux]
      split
      · exact le_trans (le_trans (ih (dropLineComment rest.tail))
          (le_trans (dropLineComment_countNL rest.tail) (countNL_tail rest)))
          (countNL_le_cons c rest)
      · rw [countNL_cons, countNL_cons]
        exact Nat.add_le_add_right (ih rest) _

theorem findBlockEndAux_countNL :
    ∀ fuel l rem, findBlockEndAux fuel l = some rem → countNL rem ≤ countNL l := by
  intro fuel
  induction fuel with
  | zero => intro l rem h; simp [findBlockEndAux] at h
  | succ n ih =>
    intro l rem h
    match l with
    | [] => simp [findBlockEndAux] at h
    | c :: rest =>
      simp only [findBlockEndAux] at h
      split at h
      · exact Option.some_inj.mp h ▸
          le_trans (countNL_tail rest) (countNL_le_cons c rest)
      · exact le_trans (ih rest rem h) (countNL_le_cons c rest)

theorem stripBlockCommentsAux_countNL :
    ∀ fuel l, countNL (stripBlockCommentsAux fuel l) ≤ countNL l := by
  intro fuel
  induction fuel with
  | zero => intro l; simp [stripBlockCommentsAux]
  | succ n ih =>
    intro l
    match l with
    | [] => simp [stripBlockCommentsAux]
    | c :: rest =>
      simp only [stripBlockCommentsAux]
      split
      · match hfind : findBlockEnd rest.tail with
        | some rem =>
          simp only [hfind]
          exact le_trans (le_trans (ih rem)
            (le_trans (findBlockEndAux_countNL rest.tail.length rest.tail rem hfind)
              (countNL_tail rest))) (countNL_le_cons c rest)
        | none =>
          simp only [hfind]
          rw [countNL_cons, countNL_cons]
          exact Nat.add_le_add_right (ih rest) _
      · rw [countNL_cons, countNL_cons]
        exact Nat.add_le_add_right (ih rest) _

/-- Claim C1, counterexample: stripping the one-newline text
a block comment spanning two lines leaves no newline at all, so the
stripper does not preserve the line count. -/
theorem claim_C1_counterexample :
    ¬ countNL (cc_strip (String.toList "/*\n*/")) = countNL (String.toList "/*\n*/") := by
  decide

/-- Claim C1, amended: stripping comments and string/char literals
never *introduces* a newline - the newline count can only decrease
(newlines inside block comments and inside multi-line literals are
removed together with the span) - for both the cc.py and the
halstead.py stripper. -/
theorem claim_C1_amended (s : List Char) :
    countNL (cc_strip s) ≤ countNL s ∧ countNL (halstead_strip s) ≤ countNL s := by
  constructor
  · exact le_trans (stripBlockCommentsAux_countNL _ _)
      (le_trans (stripLineCommentsAux_countNL _ _)
        (le_trans (stripLits_countNL true '\'' ['\'', '\''] (by decide) _)
          (stripLits_countNL true '"' ['"', '"'] (by decide) s)))
  · exact le_trans (stripLits_countNL false '\'' [] (by decide) _)
      (le_trans (stripLits_countNL false '"' [] (by decide) _)
        (le_trans (stripBlockCommentsAux_countNL _ _)
          (stripLineCommentsAux_countNL _ _)))

/-- Claim C2: the decision-point counter returns 1 plus the whole-word
occurrences of `if`, `for`, `while`, `case`, `catch` plus the `?`, `&&`
and `||` counts; it is at least 1 on every body, and a keyword inside a
longer identifier such as `ifdef` is not counted. -/
theorem claim_C2 (body : List Char) :
    cyclomatic body =
      1 + (countWord (String.toList "if") body + countWord (String.toList "for") body
        + countWord (String.toList "while") body + countWord (String.toList "case") body
        + countWord (String.toList "catch") body + body.count '?'
        + countSub (String.toList "&&") body + countSub (String.toList "||") body)
    ∧ 1 ≤ cyclomatic body
    ∧ cyclomatic (String.toList "ifdef") = 1 := by
  refine ⟨?_, ?_, by decide⟩
  · unfold cyclomatic decisionPoints; omega
  · unfold cyclomatic; omega

/-- Claim C4: on the one-line input
`int f(int x){ if (x) return 1; else return 0; }` the locator emits
exactly one record, on line 1 throughout, with cyclomatic complexity 2. -/
theorem claim_C4 :
    find_functions_in_code "input.c"
      (String.toList "int f(int x)\x7b if (x) return 1; else return 0; \x7d")
      = [{ filename := "input.c", function_start := 1, function_end := 1, cc := 2 }] := by
  decide

/-- Claim C7: strategy B computes `control_flow = max(0, c - 1)` and
`dfc = p * control_flow + control_flow`; at `p = 3, c = 4` the estimate
is 12. -/
theorem claim_C7 (p c : Int) :
    estimate_dfc_from_function p c = p * max 0 (c - 1) + max 0 (c - 1)
    ∧ estimate_dfc_from_function 3 4 = 12 :=
  ⟨rfl, by decide⟩

/-! ### Lemmas and claim for the Halstead metric formulas (C5) -/

theorem ch_volume_eq (operators operands : List (List Char)) :
    (compute_halstead operators operands).volume =
      if 0 < operators.dedup.length + operands.dedup.length ∧
          0 < operators.length + operands.length then
        ((operators.length + operands.length : Nat) : Real) *
          Real.logb 2 ((operators.dedup.length + operands.dedup.length : Nat) : Real)
      else 0 := rfl

theorem ch_volume_nonneg (operators operands : List (List Char)) :
    0 ≤ (compute_halstead operators operands).volume := by
  rw [ch_volume_eq]
  split_ifs with hc
  · exact mul_nonneg (Nat.cast_nonneg _)
      (Real.logb_nonneg (by norm_num) (by exact_mod_cast hc.1))
  · exact le_refl 0

theorem ch_difficulty_eq (operators operands : List (List Char)) :
    (compute_halstead operators operands).difficulty =
      if 0 < operands.dedup.length then
        ((operators.dedup.length : Nat) : Real) / 2 *
          (((operands.length : Nat) : Real) / ((operands.dedup.length : Nat) : Real))
      else 0 := rfl

theorem ch_difficulty_nonneg (operators operands : List (List Char)) :
    0 ≤ (compute_halstead operators operands).difficulty := by
  rw [ch_difficulty_eq]
  split_ifs with hc
  · exact mul_nonneg (div_nonneg (Nat.cast_nonneg _) (by norm_num))
      (div_nonneg (Nat.cast_nonneg _) (Nat.cast_nonneg _))
  · exact le_refl 0

theorem ch_effort_nonneg (operators operands : List (List Char)) :
    0 ≤ (compute_halstead operators operands).effort :=
  mul_nonneg (ch_difficulty_nonneg operators operands) (ch_volume_nonneg operators operands)

theorem ch_vocabulary_eq (operators operands : List (List Char)) :
    (compute_halstead operators operands).vocabulary =
      operators.dedup.length + operands.dedup.length := rfl

theorem ch_length_eq (operators operands : List (List Char)) :
    (compute_halstead operators operands).length =
      operators.length + operands.length := rfl

theorem ch_time_eq (operators operands : List (List Char)) :
    (compute_halstead operators operands).time =
      if 0 < (compute_halstead operators operands).effort then
        (compute_halstead operators operands).effort / 18
      else 0 := rfl

theorem ch_bugs_eq (operators operands : List (List Char)) :
    (compute_halstead operators operands).bugs =
      if 0 < (compute_halstead operators operands).volume then
        (compute_halstead operators operands).volume / 3000
      else 0 := rfl

/-- Claim C5: the Halstead metrics satisfy exactly the published
formulas, with the degenerate cases as described: `volume` is
`length * log2(vocabulary)` and 0 when vocabulary or length is 0;
`difficulty` is `(n1/2) * (N2/n2)` and 0 when `n2 = 0`;
`effort = difficulty * volume`; `time = effort / 18` and
`bugs = volume / 3000` unconditionally (hence 0 whenever the numerator
is 0, the guarded branches of the source being redundant because effort
and volume are never negative). -/
theorem claim_C5 (operators operands : List (List Char)) :
    ∀ h : HalsteadMetrics, h = compute_halstead operators operands →
    h.vocabulary = h.n1 + h.n2 ∧ h.length = h.N1 + h.N2
    ∧ h.volume = (if h.vocabulary = 0 ∨ h.length = 0 then 0
        else (h.length : Real) * Real.logb 2 (h.vocabulary : Real))
    ∧ h.difficulty = (if h.n2 = 0 then 0
        else ((h.n1 : Real) / 2) * ((h.N2 : Real) / (h.n2 : Real)))
    ∧ h.effort = h.difficulty * h.volume
    ∧ h.time = h.effort / 18
    ∧ h.bugs = h.volume / 3000 := by
  intro h hh
  rw [hh]
  refine ⟨rfl, rfl, ?_, ?_, rfl, ?_, ?_⟩
  · rw [ch_volume_eq, ch_vocabulary_eq, ch_length_eq]
    split_ifs with h1 h2 h2 <;> first | rfl | omega
  · rw [ch_difficulty_eq]
    show _ = (if (operands.dedup.length : Nat) = 0 then (0 : Real) else _)
    split_ifs with h1 h2 h2 <;> first | rfl | omega
  · rw [ch_time_eq]
    split_ifs with h1
    · rfl
    · rw [le_antisymm (not_lt.mp h1) (ch_effort_nonneg operators operands)]
      norm_num
  · rw [ch_bugs_eq]
    split_ifs with h1
    · rfl
    · rw [le_antisymm (not_lt.mp h1) (ch_volume_nonneg operators operands)]
      norm_num

/-- Witness for C5 at the empty token streams. -/
theorem claim_C5_witness :
    (compute_halstead [] []).vocabulary
        = (compute_halstead [] []).n1 + (compute_halstead [] []).n2
    ∧ (compute_halstead [] []).length
        = (compute_halstead [] []).N1 + (compute_halstead [] []).N2
    ∧ (compute_halstead [] []).volume =
        (if (compute_halstead [] []).vocabulary = 0 ∨ (compute_halstead [] []).length = 0
          then 0
          else ((compute_halstead [] []).length : Real) *
            Real.logb 2 ((compute_halstead [] []).vocabulary : Real))
    ∧ (compute_halstead [] []).difficulty =
        (if (compute_halstead [] []).n2 = 0 then 0
          else (((compute_halstead [] []).n1 : Real) / 2) *
            (((compute_halstead [] []).N2 : Real) / ((compute_halstead [] []).n2 : Real)))
    ∧ (compute_halstead [] []).effort
        = (compute_halstead [] []).difficulty * (compute_halstead [] []).volume
    ∧ (compute_halstead [] []).time = (compute_halstead [] []).effort / 18
    ∧ (compute_halstead [] []).bugs = (compute_halstead [] []).volume / 3000 :=
  claim_C5 [] [] (compute_halstead [] []) rfl

/-! ### Lemmas and claim for the strategy A assignment visitor (C6) -/

theorem dfc_visitExpr_defs (b : Block) (e : CExpr) : (dfc_visitExpr b e).defs = b.defs := by
  induction e generalizing b with
  | id n => rfl
  | const v => rfl
  | unop o e ih => exact ih b
  | binop o e1 e2 ih1 ih2 => rw [dfc_visitExpr, ih2, ih1]

theorem dfc_visitExpr_uses (b : Block) (e : CExpr) :
    (dfc_visitExpr b e).uses = b.uses ∪ exprIds e := by
  induction e generalizing b with
  | id n => simp [dfc_visitExpr, dfc_visit_ID, exprIds, Finset.insert_eq, Finset.union_comm]
  | const v => simp [dfc_visitExpr, exprIds]
  | unop o e ih => simpa [dfc_visitExpr, exprIds] using ih b
  | binop o e1 e2 ih1 ih2 =>
    rw [dfc_visitExpr, ih2, ih1, exprIds, Finset.union_assoc]

theorem bk_visitExpr_defs (b : Block) (e : CExpr) : (bk_visitExpr b e).defs = b.defs := by
  induction e generalizing b with
  | id n =>
    show (bk_visit_ID b n).defs = b.defs
    unfold bk_visit_ID
    split_ifs <;> rfl
  | const v => rfl
  | unop o e ih => exact ih b
  | binop o e1 e2 ih1 ih2 => rw [bk_visitExpr, ih2, ih1]

theorem bk_visitExpr_uses (b : Block) (e : CExpr) :
    (bk_visitExpr b e).uses = b.uses ∪ (exprIds e \ b.defs) := by
  induction e generalizing b with
  | id n =>
    show (bk_visit_ID b n).uses = _
    unfold bk_visit_ID
    split_ifs with h
    · ext a
      simp only [exprIds, Finset.mem_union, Finset.mem_sdiff, Finset.mem_singleton]
      constructor
      · exact Or.inl
      · rintro (ha | ⟨rfl, hnd⟩)
        · exact ha
        · exact absurd h hnd
    · ext a
      simp only [exprIds, Finset.mem_insert, Finset.mem_union, Finset.mem_sdiff,
        Finset.mem_singleton]
      constructor
      · rintro (rfl | ha)
        · exact Or.inr ⟨rfl, h⟩
        · exact Or.inl ha
      · rintro (ha | ⟨rfl, -⟩)
        · exact Or.inr ha
        · exact Or.inl rfl
  | const v => simp [bk_visitExpr, exprIds]
  | unop o e ih => simpa [bk_visitExpr, exprIds] using ih b
  | binop o e1 e2 ih1 ih2 =>
    rw [bk_visitExpr, ih2, bk_visitExpr_defs, ih1, exprIds, Finset.union_sdiff_distrib,
      Finset.union_assoc]

/-- Claim C6, counterexample: in the backup variant of strategy A
(dfc_pycparser_backup.py), tracing `x = 1; y = x;` inside one block,
the second assignment references `x` on its right-hand side, yet the
resulting block records no use at all: `visit_ID` skips a name that is
already in the block's def set.  So the claim that every assignment
adds every right-hand identifier to the use set is false for that
cited implementation. -/
theorem claim_C6_counterexample :
    "x" ∈ exprIds (CExpr.id "x")
    ∧ "x" ∉ (bk_visit_Assignment
        (bk_visit_Assignment (Block.mk ∅ ∅) (CExpr.id "x") (CExpr.const 1))
        (CExpr.id "y") (CExpr.id "x")).uses := by
  decide

/-- Claim C6, amended: in both strategy A implementations the
assignment handler records a def for the left-hand target exactly when
that target is a simple name.  In dfc.py every identifier referenced
in the right-hand expression is added to the use set, and the result
coincides with recording the right-hand uses before the target def
(the source adds the def first, but use recording there is
unconditional, so the orders agree).  In the backup variant the rvalue
is visited before the def is recorded, and a right-hand identifier is
added to the use set only when it is not already in the block's def
set, so an identifier defined earlier in the same block yields no
use. -/
theorem claim_C6_amended (b : Block) (lvalue rvalue : CExpr) :
    (dfc_visit_Assignment b lvalue rvalue).uses = b.uses ∪ exprIds rvalue
    ∧ (dfc_visit_Assignment b lvalue rvalue).defs =
        (match lvalue with
          | .id n => insert n b.defs
          | _ => b.defs)
    ∧ dfc_visit_Assignment b lvalue rvalue = uses_first_Assignment b lvalue rvalue
    ∧ (bk_visit_Assignment b lvalue rvalue).uses = b.uses ∪ (exprIds rvalue \ b.defs)
    ∧ (bk_visit_Assignment b lvalue rvalue).defs =
        (match lvalue with
          | .id n => insert n b.defs
          | _ => b.defs) := by
  refine ⟨?_, ?_, ?_, ?_, ?_⟩
  · cases lvalue <;> simp [dfc_visit_Assignment, dfc_visitExpr_uses]
  · cases lvalue <;> simp [dfc_visit_Assignment, dfc_visitExpr_defs]
  · cases lvalue <;>
      · ext x <;>
          simp [dfc_visit_Assignment, uses_first_Assignment,
            dfc_visitExpr_defs, dfc_visitExpr_uses]
  · cases lvalue <;> simp [bk_visit_Assignment, bk_visitExpr_uses]
  · cases lvalue <;> simp [bk_visit_Assignment, bk_visitExpr_defs]

/-! ### Lemmas and claim for the strategy A fallback chain (C9) -/

theorem dfc_analyze_directory_files_aux
    (files : List (Option (Nat × List Block) × Option (Nat × List Block) ×
      Option (Option (Nat × List Block)))) :
    ∀ acc : Nat × Nat × Nat,
      (files.foldl
        (fun acc f =>
          let r := dfc_analyze_file f.1 f.2.1 f.2.2
          (acc.1 + r.1, acc.2.1 + 1, acc.2.2 + r.2.length)) acc).2.1
        = acc.2.1 + files.length := by
  induction files with
  | nil => intro acc; simp
  | cons f fs ih =>
    intro acc
    rw [List.foldl_cons, ih]
    simp
    omega

/-- Claim C9: when every parsing tier of strategy A fails (raw parse,
preprocessed parse, and the subprocess tier - whether the subprocess
itself or the reparse of its output fails), `analyze_file` returns the
zero result `(0, [])` - it is a total function, so no exception
escapes the per-file call - and `analyze_directory` still counts every
matching file in its files tally. -/
theorem claim_C9 (t1 t2 : Option (Nat × List Block))
    (t3 : Option (Option (Nat × List Block)))
    (files : List (Option (Nat × List Block) × Option (Nat × List Block) ×
      Option (Option (Nat × List Block))))
    (h1 : t1 = none) (h2 : t2 = none) (h3 : t3 = none ∨ t3 = some none) :
    dfc_analyze_file t1 t2 t3 = (0, [])
    ∧ (dfc_analyze_directory files).2.1 = files.length := by
  constructor
  · subst h1; subst h2
    rcases h3 with h3 | h3 <;> subst h3 <;> rfl
  · have := dfc_analyze_directory_files_aux files (0, 0, 0)
    simpa [dfc_analyze_directory] using this

/-- Witness for C9 at a concrete all-tiers-failed file. -/
theorem claim_C9_witness :
    dfc_analyze_file none none (some none) = (0, [])
    ∧ (dfc_analyze_directory [(none, none, some none)]).2.1
        = [((none : Option (Nat × List Block)), (none : Option (Nat × List Block)),
            (some none : Option (Option (Nat × List Block))))].length :=
  claim_C9 none none (some none) [(none, none, some none)] rfl rfl (Or.inr rfl)

/-! ### Lemmas and claim for the cyclomatic project aggregation (C10) -/

theorem get_cc_metrics_aux (files : List (String × Option (List Char))) :
    ∀ acc : CCMetrics,
      (files.foldl
        (fun acc file =>
          let recs := find_functions_in_file file.1 file.2
          if recs.isEmpty then acc
          else { total_cc := acc.total_cc + (recs.map (fun r => r.cc)).sum
                 files_count := acc.files_count + 1
                 details := acc.details ++ recs }) acc)
      = { total_cc := acc.total_cc +
            (((files.map (fun f => find_functions_in_file f.1 f.2)).flatten.map
              (fun r => r.cc)).sum)
          files_count := acc.files_count +
            files.countP (fun f => !(find_functions_in_file f.1 f.2).isEmpty)
          details := acc.details ++
            (files.map (fun f => find_functions_in_file f.1 f.2)).flatten } := by
  induction files with
  | nil => intro acc; simp
  | cons f fs ih =>
    intro acc
    rw [List.foldl_cons]
    by_cases hemp : (find_functions_in_file f.1 f.2).isEmpty
    · have hnil : find_functions_in_file f.1 f.2 = [] := by
        simpa [List.isEmpty_iff] using hemp
      rw [if_pos hemp, ih acc]
      simp [List.countP_cons, hnil]
    · rw [if_neg hemp, ih]
      simp only [List.map_cons, List.flatten_cons, List.countP_cons, hemp, List.map_append,
        List.sum_append, List.append_assoc, CCMetrics.mk.injEq]
      refine ⟨by omega, by simp [Bool.not_eq_true] at hemp ⊢; omega, trivial⟩

/-- Claim C10: in `get_cc_metrics`, the total complexity is exactly the
sum of the `cc` values in `details`; `details` is the concatenation of
the per-file record lists; `files_count` counts exactly the files whose
record list is nonempty (so an unreadable file - optional content
`none`, whose record list is empty - or a readable file in which no
function boundary was detected increments neither counter and
contributes nothing to `details`). -/
theorem claim_C10 (files : List (String × Option (List Char))) (fn : String) :
    (get_cc_metrics files).total_cc
        = (((get_cc_metrics files).details).map (fun r => r.cc)).sum
    ∧ (get_cc_metrics files).details
        = (files.map (fun f => find_functions_in_file f.1 f.2)).flatten
    ∧ (get_cc_metrics files).files_count
        = files.countP (fun f => !(find_functions_in_file f.1 f.2).isEmpty)
    ∧ find_functions_in_file fn none = [] := by
  unfold get_cc_metrics
  rw [get_cc_metrics_aux files { total_cc := 0, files_count := 0, details := [] }]
  refine ⟨by simp, by simp, by simp, rfl⟩

/-! ### Lemmas and claim for the function-boundary invariants (C3) -/

theorem firstSome_some (f : α → Option β) :
    ∀ (l : List α) (v : β), firstSome f l = some v → ∃ x ∈ l, f x = some v := by
  intro l
  induction l with
  | nil => intro v h; simp [firstSome] at h
  | cons x xs ih =>
    intro v h
    simp only [firstSome] at h
    cases hx : f x with
    | some w => rw [hx] at h; exact ⟨x, List.mem_cons_self x xs, hx.trans h⟩
    | none =>
      rw [hx] at h
      obtain ⟨y, hy, hfy⟩ := ih v h
      exact ⟨y, List.mem_cons_of_mem x hy, hfy⟩

/-- Any successful run of the matcher hands the continuation a
remainder no longer than the input, and strictly shorter when the
pattern ends in a consuming element. -/
theorem matchRE_some (re : RE) :
    ∀ (s : List Char) (k : List Char → Option (List Char)) (v : List Char),
      matchRE re s k = some v →
      ∃ rem, k rem = some v ∧ rem.length ≤ s.length ∧
        (endsWithConsuming re = true → rem.length < s.length) := by
  induction re with
  | eps =>
    intro s k v h
    exact ⟨s, h, le_refl _, by simp [endsWithConsuming]⟩
  | lit c =>
    intro s k v h
    match s with
    | [] => simp [matchRE] at h
    | c1 :: rest =>
      simp only [matchRE] at h
      split at h
      · exact ⟨rest, h, by simp, fun _ => by simp⟩
      · exact absurd h (by simp)
  | cls p =>
    intro s k v h
    match s with
    | [] => simp [matchRE] at h
    | c1 :: rest =>
      simp only [matchRE] at h
      split at h
      · exact ⟨rest, h, by simp, fun _ => by simp⟩
      · exact absurd h (by simp)
  | star p lazy =>
    intro s k v h
    simp only [matchRE] at h
    obtain ⟨i, _, hk⟩ := firstSome_some _ _ _ h
    refine ⟨s.drop i, hk, ?_, by simp [endsWithConsuming]⟩
    rw [List.length_drop]
    exact Nat.sub_le _ _
  | opt r ih =>
    intro s k v h
    simp only [matchRE] at h
    cases hm : matchRE r s k with
    | some v1 =>
      rw [hm] at h
      obtain ⟨rem, hk, hlen, _⟩ := ih s k v1 hm
      exact ⟨rem, hk.trans h, hlen, by simp [endsWithConsuming]⟩
    | none =>
      rw [hm] at h
      exact ⟨s, h, le_refl _, by simp [endsWithConsuming]⟩
  | seq a b iha ihb =>
    intro s k v h
    simp only [matchRE] at h
    obtain ⟨mid, hmid, hlen1, _⟩ := iha s _ v h
    obtain ⟨rem, hk, hlen2, hcons⟩ := ihb mid k v hmid
    refine ⟨rem, hk, le_trans hlen2 hlen1, fun hc => ?_⟩
    have hb : endsWithConsuming b = true := hc
    exact lt_of_lt_of_le (hcons hb) hlen1

/-- Every span `finditer` reports for a pattern ending in a consuming
element is nonempty: its end index is strictly beyond its start. -/
theorem finditerAux_lt (re : RE) (hre : endsWithConsuming re = true) :
    ∀ (fuel : Nat) (s : List Char) (pos : Nat) (p : Nat × Nat),
      p ∈ finditerAux re fuel s pos → p.1 < p.2 := by
  intro fuel
  induction fuel with
  | zero => intro s pos p h; simp [finditerAux] at h
  | succ n ih =>
    intro s pos p h
    match s with
    | [] => simp [finditerAux] at h
    | c :: rest =>
      simp only [finditerAux] at h
      cases hm : matchRE re (c :: rest) some with
      | some rem =>
        rw [hm] at h
        dsimp only at h
        obtain ⟨rem2, hk, _, hcons⟩ := matchRE_some re (c :: rest) some rem hm
        have hlt : rem.length < (c :: rest).length := Option.some_inj.mp hk ▸ hcons hre
        rw [if_pos hlt] at h
        rcases List.mem_cons.mp h with heq | hmem
        · subst heq
          simp only [List.length_cons] at hlt ⊢
          omega
        · exact ih rem _ p hmem
      | none =>
        rw [hm] at h
        exact ih rest _ p h

theorem scanCloseAux_ge :
    ∀ (l : List Char) (idx : Nat) (bal : Int) (i : Nat),
      scanCloseAux l idx bal = some i → idx ≤ i := by
  intro l
  induction l with
  | nil => intro idx bal i h; simp [scanCloseAux] at h
  | cons c rest ih =>
    intro idx bal i h
    simp only [scanCloseAux] at h
    split at h
    · exact le_trans (Nat.le_succ idx) (ih _ _ _ h)
    · split at h
      · split at h
        · exact le_of_eq (Option.some_inj.mp h)
        · exact le_trans (Nat.le_succ idx) (ih _ _ _ h)
      · exact le_trans (Nat.le_succ idx) (ih _ _ _ h)

theorem countNL_take_mono (l : List Char) :
    ∀ a b : Nat, a ≤ b → countNL (l.take a) ≤ countNL (l.take b) := by
  induction l with
  | nil => intro a b _; simp
  | cons c rest ih =>
    intro a b hab
    match a, b with
    | 0, _ => simp [countNL]
    | _ + 1, 0 => exact absurd hab (by omega)
    | a + 1, b + 1 =>
      simp only [List.take_succ_cons]
      rw [countNL_cons, countNL_cons]
      exact Nat.add_le_add_right (ih a b (by omega)) _

theorem length_filterMap_isSome (f : α → Option β) :
    ∀ l : List α,
      (l.filterMap f).length = (l.filter (fun a => (f a).isSome)).length := by
  intro l
  induction l with
  | nil => rfl
  | cons x xs ih =>
    cases hx : f x with
    | some v => simp [List.filterMap_cons, List.filter_cons, hx, ih]
    | none => simp [List.filterMap_cons, List.filter_cons, hx, ih]

/-- Claim C3: every emitted record satisfies
`function_start <= function_end`, and the records are exactly the
header matches whose brace balance returned to zero - a match whose
scan reaches end-of-text is silently dropped (the per-match function
returns `none`; nothing is raised, the locator being total). -/
theorem claim_C3 (fn : String) (content : List Char) :
    (∀ r ∈ find_functions_in_code fn content, r.function_start ≤ r.function_end)
    ∧ (find_functions_in_code fn content).length
        = ((finditer funcPattern (cc_strip content)).filter
            (fun me =>
              (scanCloseAux ((cc_strip content).drop (me.2 - 1)) (me.2 - 1) 0).isSome)).length := by
  constructor
  · intro r hr
    simp only [find_functions_in_code] at hr
    obtain ⟨me, hme, hfme⟩ := List.mem_filterMap.mp hr
    cases hscan : scanCloseAux ((cc_strip content).drop (me.2 - 1)) (me.2 - 1) 0 with
    | none => rw [hscan] at hfme; exact absurd hfme (by simp)
    | some closeIdx =>
      rw [hscan] at hfme
      dsimp only at hfme
      have h1 : me.1 < me.2 := finditerAux_lt funcPattern rfl _ _ _ me hme
      have h2 : me.2 - 1 ≤ closeIdx := scanCloseAux_ge _ _ _ _ hscan
      rw [← Option.some_inj.mp hfme]
      exact Nat.add_le_add_right (countNL_take_mono _ _ _ (by omega)) 1
  · simp only [find_functions_in_code]
    rw [length_filterMap_isSome]
    congr 1
    refine List.filter_congr ?_
    intro me _
    cases hscan : scanCloseAux ((cc_strip content).drop (me.2 - 1)) (me.2 - 1) 0 with
    | none => simp [hscan]
    | some closeIdx => simp [hscan]

/-! ### Lemmas and claim for the Halstead operand tokenization (C8) -/

theorem char_digit_val (c : Char) (h : c.isDigit = true) :
    48 ≤ c.val.toNat ∧ c.val.toNat ≤ 57 := by
  unfold Char.isDigit at h
  simp only [Bool.and_eq_true, decide_eq_true_eq] at h
  exact ⟨h.1, h.2⟩

theorem digit_isAlpha_false (c : Char) (h : c.isDigit = true) : c.isAlpha = false := by
  obtain ⟨h1, h2⟩ := char_digit_val c h
  unfold Char.isAlpha Char.isLower Char.isUpper
  simp only [Bool.or_eq_false_iff, Bool.and_eq_false_iff, decide_eq_false_iff_not, not_le]
  refine ⟨Or.inl ?_, Or.inl ?_⟩
  · intro hc
    have h65 : 65 ≤ c.val.toNat := hc
    omega
  · intro hc
    have h97 : 97 ≤ c.val.toNat := hc
    omega

theorem digit_not_identStart (c : Char) (h : c.isDigit = true) : isIdentStart c = false := by
  have ha := digit_isAlpha_false c h
  have hu : ¬ c = '_' := fun e => by rw [e] at h; exact absurd h (by decide)
  simp [isIdentStart, ha, hu]

theorem stripLitsAux_id (d : Bool) (q : Char) (repl : List Char) :
    ∀ fuel l, q ∉ l → stripLitsAux d q repl fuel l = l := by
  intro fuel
  induction fuel with
  | zero => intro l _; rfl
  | succ n ih =>
    intro l hq
    match l with
    | [] => rfl
    | c :: rest =>
      have hc : ¬ c = q := fun e => hq (List.mem_cons.mpr (Or.inl e.symm))
      simp only [stripLitsAux, if_neg hc]
      rw [ih rest (fun hm => hq (List.mem_cons_of_mem c hm))]

theorem stripLineCommentsAux_id :
    ∀ fuel l, '/' ∉ l → stripLineCommentsAux fuel l = l := by
  intro fuel
  induction fuel with
  | zero => intro l _; rfl
  | succ n ih =>
    intro l hq
    match l with
    | [] => rfl
    | c :: rest =>
      have hc : ¬ (c = '/' ∧ rest.head? = some '/') :=
        fun e => hq (List.mem_cons.mpr (Or.inl e.1.symm))
      simp only [stripLineCommentsAux, if_neg hc]
      rw [ih rest (fun hm => hq (List.mem_cons_of_mem c hm))]

theorem stripBlockCommentsAux_id :
    ∀ fuel l, '/' ∉ l → stripBlockCommentsAux fuel l = l := by
  intro fuel
  induction fuel with
  | zero => intro l _; rfl
  | succ n ih =>
    intro l hq
    match l with
    | [] => rfl
    | c :: rest =>
      have hc : ¬ (c = '/' ∧ rest.head? = some '*') :=
        fun e => hq (List.mem_cons.mpr (Or.inl e.1.symm))
      simp only [stripBlockCommentsAux, if_neg hc]
      rw [ih rest (fun hm => hq (List.mem_cons_of_mem c hm))]

theorem halstead_strip_id (l : List Char) (h1 : '/' ∉ l) (h2 : '"' ∉ l) (h3 : '\'' ∉ l) :
    halstead_strip l = l := by
  unfold halstead_strip stripLineComments stripBlockComments stripLits
  rw [stripLineCommentsAux_id _ _ h1, stripBlockCommentsAux_id _ _ h1,
    stripLitsAux_id _ _ _ _ _ h2, stripLitsAux_id _ _ _ _ _ h3]

theorem replaceCountAux_nooccur (c0 : Char) (t' : List Char) :
    ∀ fuel l, c0 ∉ l → replaceCountAux (c0 :: t') fuel l = (0, l) := by
  intro fuel
  induction fuel with
  | zero => intro l _; rfl
  | succ n ih =>
    intro l hc
    match l with
    | [] => rfl
    | c :: rest =>
      have hne : ¬ (c0 :: t').isPrefixOf (c :: rest) = true := by
        simp only [List.isPrefixOf, Bool.and_eq_true, beq_iff_eq]
        rintro ⟨hh, -⟩
        exact hc (List.mem_cons.mpr (Or.inl hh))
      simp only [replaceCountAux, if_neg hne]
      rw [ih rest (fun hm => hc (List.mem_cons_of_mem c hm))]

theorem tokops_foldl_nooccur :
    ∀ (ts : List (List Char)) (ops : List (List Char)) (l : List Char),
      (∀ t ∈ ts, t ≠ []) →
      (∀ t ∈ ts, ∀ c0 t1, t = c0 :: t1 → c0 ∉ l) →
      ts.foldl
        (fun acc t =>
          let r := replaceCount t acc.2
          (acc.1 ++ List.replicate r.1 t, r.2)) (ops, l) = (ops, l) := by
  intro ts
  induction ts with
  | nil => intro ops l _ _; rfl
  | cons t ts ih =>
    intro ops l hne hh
    obtain ⟨c0, t1, rfl⟩ : ∃ c0 t1, t = c0 :: t1 := by
      match t, hne t (List.mem_cons_self t ts) with
      | c0 :: t1, _ => exact ⟨c0, t1, rfl⟩
    have h0 : replaceCount (c0 :: t1) l = (0, l) :=
      replaceCountAux_nooccur c0 t1 l.length l (hh _ (List.mem_cons_self _ _) c0 t1 rfl)
    rw [List.foldl_cons]
    simp only [h0, List.replicate, List.append_nil]
    exact ih ops l (fun t2 ht => hne t2 (List.mem_cons_of_mem _ ht))
      (fun t2 ht => hh t2 (List.mem_cons_of_mem _ ht))

theorem replaceCountAux_dot (d2 : List Char) (h2 : '.' ∉ d2) :
    ∀ (d1 : List Char), '.' ∉ d1 → ∀ fuel, d1.length < fuel →
      replaceCountAux ['.'] fuel (d1 ++ '.' :: d2) = (1, d1 ++ ' ' :: d2) := by
  intro d1
  induction d1 with
  | nil =>
    intro _ fuel hf
    match fuel, hf with
    | f + 1, _ =>
      have hpre : (['.'] : List Char).isPrefixOf ('.' :: d2) = true := by
        simp [List.isPrefixOf]
      have hdrop : List.drop (['.'] : List Char).length ('.' :: d2) = d2 := rfl
      simp only [List.nil_append, replaceCountAux, if_pos hpre, hdrop,
        replaceCountAux_nooccur '.' [] f d2 h2]
  | cons c d1' ih =>
    intro h1 fuel hf
    match fuel, hf with
    | f + 1, hfx =>
      have hc : ¬ c = '.' := fun e => h1 (List.mem_cons.mpr (Or.inl e.symm))
      have hne : ¬ (['.'] : List Char).isPrefixOf (c :: (d1' ++ '.' :: d2)) = true := by
        simp only [List.isPrefixOf, Bool.and_eq_true, beq_iff_eq]
        rintro ⟨hh, -⟩
        exact hc hh.symm
      simp only [List.cons_append, replaceCountAux, List.append_eq, if_neg hne]
      rw [ih (fun hm => h1 (List.mem_cons_of_mem c hm)) f
        (by simp only [List.length_cons] at hfx; omega)]

theorem replaceCount_dot (d1 d2 : List Char) (h1 : '.' ∉ d1) (h2 : '.' ∉ d2) :
    replaceCount ['.'] (d1 ++ '.' :: d2) = (1, d1 ++ ' ' :: d2) := by
  unfold replaceCount
  exact replaceCountAux_dot d2 h2 d1 h1 _ (by simp)

/-- Head test used to discharge the operator passes on digit-and-dot
texts: the token is nonempty and starts with neither a digit nor `.`. -/
def headNotDigitDot : List Char → Bool
  | [] => false
  | c0 :: _ => !c0.isDigit && !(c0 = '.')

/-- Head test for the passes after the `.` pass, over digit-and-space
texts. -/
def headNotDigitSpace : List Char → Bool
  | [] => false
  | c0 :: _ => !c0.isDigit && !(c0 = ' ')

/-- Head test over pure digit texts. -/
def headNotDigit : List Char → Bool
  | [] => false
  | c0 :: _ => !c0.isDigit

theorem opTokensPre_head : ∀ t ∈ opTokensPre, headNotDigitDot t = true := by decide

theorem opTokensPost_head : ∀ t ∈ opTokensPost, headNotDigitSpace t = true := by decide

theorem opTokensSorted_head : ∀ t ∈ opTokensSorted, headNotDigit t = true := by decide

theorem headNotDigit_ne_nil (t : List Char) (h : headNotDigit t = true) : t ≠ [] := by
  match t with
  | [] => simp [headNotDigit] at h
  | _ :: _ => simp

theorem headNotDigitDot_ne_nil (t : List Char) (h : headNotDigitDot t = true) : t ≠ [] := by
  match t with
  | [] => simp [headNotDigitDot] at h
  | _ :: _ => simp

theorem headNotDigitSpace_ne_nil (t : List Char) (h : headNotDigitSpace t = true) : t ≠ [] := by
  match t with
  | [] => simp [headNotDigitSpace] at h
  | _ :: _ => simp

theorem headNotDigitDot_nooccur (l : List Char) (hs : ∀ c ∈ l, c.isDigit = true ∨ c = '.')
    (t : List Char) (ht : headNotDigitDot t = true) :
    ∀ c0 t1, t = c0 :: t1 → c0 ∉ l := by
  rintro c0 t1 rfl hc0
  simp only [headNotDigitDot, Bool.and_eq_true, Bool.not_eq_true', decide_eq_false_iff_not] at ht
  rcases hs c0 hc0 with hd | hd
  · rw [ht.1] at hd; cases hd
  · exact ht.2 hd

theorem headNotDigitSpace_nooccur (l : List Char) (hs : ∀ c ∈ l, c.isDigit = true ∨ c = ' ')
    (t : List Char) (ht : headNotDigitSpace t = true) :
    ∀ c0 t1, t = c0 :: t1 → c0 ∉ l := by
  rintro c0 t1 rfl hc0
  simp only [headNotDigitSpace, Bool.and_eq_true, Bool.not_eq_true',
    decide_eq_false_iff_not] at ht
  rcases hs c0 hc0 with hd | hd
  · rw [ht.1] at hd; cases hd
  · exact ht.2 hd

theorem headNotDigit_nooccur (l : List Char) (hs : ∀ c ∈ l, c.isDigit = true)
    (t : List Char) (ht : headNotDigit t = true) :
    ∀ c0 t1, t = c0 :: t1 → c0 ∉ l := by
  rintro c0 t1 rfl hc0
  simp only [headNotDigit, Bool.not_eq_true'] at ht
  rw [hs c0 hc0] at ht
  cases ht

theorem takeWhile_all (p : Char → Bool) :
    ∀ xs : List Char, (∀ c ∈ xs, p c = true) →
      xs.takeWhile p = xs ∧ xs.dropWhile p = [] := by
  intro xs
  induction xs with
  | nil => intro _; simp
  | cons x xs ih =>
    intro h
    have hx := h x (List.mem_cons_self x xs)
    obtain ⟨h1, h2⟩ := ih (fun c hc => h c (List.mem_cons_of_mem x hc))
    simp [List.takeWhile_cons, List.dropWhile_cons, hx, h1, h2]

theorem takeWhile_append_stop (p : Char → Bool) (y : Char) (hy : p y = false) (r : List Char) :
    ∀ xs : List Char, (∀ c ∈ xs, p c = true) →
      (xs ++ y :: r).takeWhile p = xs ∧ (xs ++ y :: r).dropWhile p = y :: r := by
  intro xs
  induction xs with
  | nil => intro _; simp [List.takeWhile_cons, List.dropWhile_cons, hy]
  | cons x xs ih =>
    intro h
    have hx := h x (List.mem_cons_self x xs)
    obtain ⟨h1, h2⟩ := ih (fun c hc => h c (List.mem_cons_of_mem x hc))
    simp [List.takeWhile_cons, List.dropWhile_cons, hx, h1, h2]

theorem identsAux_none :
    ∀ (fuel : Nat) (b : Bool) (l : List Char), (∀ c ∈ l, isIdentStart c = false) →
      identsAux fuel b l = [] := by
  intro fuel
  induction fuel with
  | zero => intro b l _; rfl
  | succ n ih =>
    intro b l h
    match l with
    | [] => rfl
    | c :: rest =>
      have hc := h c (List.mem_cons_self c rest)
      have hcond : ¬ ((!b) = true ∧ isIdentStart c = true) := by simp [hc]
      simp only [identsAux, if_neg hcond]
      exact ih _ rest (fun c1 hc1 => h c1 (List.mem_cons_of_mem c hc1))

theorem numsAux_nil (fuel : Nat) (b : Bool) : numsAux fuel b [] = [] := by
  cases fuel <;> rfl

theorem numsAux_digits_single (d : List Char) (hne : d ≠ [])
    (hd : ∀ c ∈ d, c.isDigit = true) :
    ∀ fuel, d.length ≤ fuel → numsAux fuel false d = [d] := by
  match d, hne with
  | c :: d', _ =>
    intro fuel hf
    match fuel, hf with
    | 0, hf0 => exact absurd hf0 (by simp)
    | f + 1, _ =>
      have hc : c.isDigit = true := hd c (List.mem_cons_self c d')
      have hd' : ∀ x ∈ d', x.isDigit = true := fun x hx => hd x (List.mem_cons_of_mem c hx)
      obtain ⟨ht, hdr⟩ := takeWhile_all Char.isDigit d' hd'
      have hcond : ((!false) = true ∧ c.isDigit = true) := ⟨rfl, hc⟩
      simp only [numsAux, if_pos hcond, ht, hdr]
      rw [if_neg (by simp : ¬ ([] : List Char).head? = some '.')]
      rw [if_neg (by decide : ¬ wordCharOpt ([] : List Char).head? = true)]
      rw [numsAux_nil]

theorem numsAux_space_cons (d2 : List Char) (h2 : d2 ≠ [])
    (hd2 : ∀ c ∈ d2, c.isDigit = true) :
    ∀ fuel, d2.length + 1 ≤ fuel → numsAux fuel true (' ' :: d2) = [d2] := by
  intro fuel hf
  match fuel, hf with
  | 0, hf0 => exact absurd hf0 (by simp)
  | f + 1, hfx =>
    have hcond : ¬ ((!true) = true ∧ (' ' : Char).isDigit = true) := by simp
    simp only [numsAux, if_neg hcond]
    have hword : isWordChar ' ' = false := by decide
    rw [hword]
    exact numsAux_digits_single d2 h2 hd2 f (by omega)

theorem numsAux_digits_pair (d1 d2 : List Char) (h1 : d1 ≠ []) (h2 : d2 ≠ [])
    (hd1 : ∀ c ∈ d1, c.isDigit = true) (hd2 : ∀ c ∈ d2, c.isDigit = true) :
    ∀ fuel, d1.length + 1 + d2.length ≤ fuel →
      numsAux fuel false (d1 ++ ' ' :: d2) = [d1, d2] := by
  match d1, h1 with
  | c :: d1', _ =>
    intro fuel hf
    match fuel, hf with
    | 0, hf0 => exact absurd hf0 (by simp)
    | f + 1, hfx =>
      have hc : c.isDigit = true := hd1 c (List.mem_cons_self c d1')
      have hd1' : ∀ x ∈ d1', x.isDigit = true := fun x hx => hd1 x (List.mem_cons_of_mem c hx)
      obtain ⟨ht, hdr⟩ := takeWhile_append_stop Char.isDigit ' ' (by decide) d2 d1' hd1'
      have hcond : ((!false) = true ∧ c.isDigit = true) := ⟨rfl, hc⟩
      simp only [List.cons_append, numsAux, List.append_eq, if_pos hcond, ht, hdr]
      have hh : (' ' :: d2).head? = some ' ' := rfl
      rw [hh]
      rw [if_neg (by decide : ¬ (some ' ' : Option Char) = some '.')]
      rw [if_neg (by decide : ¬ wordCharOpt (some ' ') = true)]
      rw [numsAux_space_cons d2 h2 hd2 f (by simp only [List.length_cons] at hfx; omega)]

/-- Claim C8, counterexample: the decimal literal `3.14` is not one
operand token: the `.` is removed as an operator before operands are
matched, so the operands are `3` and `14`. -/
theorem claim_C8_counterexample :
    (tokenize_source (String.toList "3.14")).2 = [String.toList "3", String.toList "14"]
    ∧ ¬ String.toList "3.14" ∈ (tokenize_source (String.toList "3.14")).2 := by
  decide

/-- Claim C8, amended: every integer literal is emitted as a single
operand token, but a decimal literal `d1.d2` is split: the dot is
recorded as an operator (its pattern is in the operator list, and all
operators are removed - replaced by a space - before the operand
scan), and the integer and fractional digit runs become two separate
operand tokens. -/
theorem claim_C8_amended (d1 d2 : List Char) (h1 : d1 ≠ []) (h2 : d2 ≠ [])
    (hd1 : ∀ c ∈ d1, c.isDigit = true) (hd2 : ∀ c ∈ d2, c.isDigit = true) :
    tokenize_source d1 = ([], [d1])
    ∧ tokenize_source (d1 ++ '.' :: d2) = ([String.toList "."], [d1, d2]) := by
  have hnotmem : ∀ x : Char, x.isDigit = false → x ∉ d1 ∧ x ∉ d2 := by
    intro x hx
    constructor
    · intro hm; rw [hd1 x hm] at hx; cases hx
    · intro hm; rw [hd2 x hm] at hx; cases hx
  constructor
  · have hstrip : halstead_strip d1 = d1 :=
      halstead_strip_id d1 (hnotmem '/' (by decide)).1 (hnotmem '"' (by decide)).1
        (hnotmem '\'' (by decide)).1
    have hops : tokenize_operators d1 = ([], d1) := by
      unfold tokenize_operators
      exact tokops_foldl_nooccur opTokensSorted [] d1
        (fun t ht => headNotDigit_ne_nil t (opTokensSorted_head t ht))
        (fun t ht => headNotDigit_nooccur d1 hd1 t (opTokensSorted_head t ht))
    have hident : findIdentifiers d1 = [] :=
      identsAux_none d1.length false d1 (fun c hc => digit_not_identStart c (hd1 c hc))
    have hnum : findNumbers d1 = [d1] :=
      numsAux_digits_single d1 h1 hd1 d1.length (le_refl _)
    simp only [tokenize_source, hstrip, hops, hident, hnum, List.nil_append]
  · have hs : ∀ c ∈ d1 ++ '.' :: d2, c.isDigit = true ∨ c = '.' := by
      intro c hc
      rcases List.mem_append.mp hc with hm | hm
      · exact Or.inl (hd1 c hm)
      · rcases List.mem_cons.mp hm with hm | hm
        · exact Or.inr hm
        · exact Or.inl (hd2 c hm)
    have hs9 : ∀ c ∈ d1 ++ ' ' :: d2, c.isDigit = true ∨ c = ' ' := by
      intro c hc
      rcases List.mem_append.mp hc with hm | hm
      · exact Or.inl (hd1 c hm)
      · rcases List.mem_cons.mp hm with hm | hm
        · exact Or.inr hm
        · exact Or.inl (hd2 c hm)
    have hnot : ∀ x : Char, x.isDigit = false → ¬ x = '.' → x ∉ d1 ++ '.' :: d2 := by
      intro x hx hdot hm
      rcases hs x hm with h | h
      · rw [hx] at h; cases h
      · exact hdot h
    have hstrip : halstead_strip (d1 ++ '.' :: d2) = d1 ++ '.' :: d2 :=
      halstead_strip_id _ (hnot '/' (by decide) (by decide))
        (hnot '"' (by decide) (by decide)) (hnot '\'' (by decide) (by decide))
    have hops : tokenize_operators (d1 ++ '.' :: d2)
        = ([String.toList "."], d1 ++ ' ' :: d2) := by
      unfold tokenize_operators
      rw [show opTokensSorted = opTokensPre ++ String.toList "." :: opTokensPost from rfl]
      rw [List.foldl_append]
      rw [tokops_foldl_nooccur opTokensPre [] (d1 ++ '.' :: d2)
        (fun t ht => headNotDigitDot_ne_nil t (opTokensPre_head t ht))
        (fun t ht => headNotDigitDot_nooccur _ hs t (opTokensPre_head t ht))]
      rw [List.foldl_cons]
      have hdotstep : replaceCount (String.toList ".") (d1 ++ '.' :: d2)
          = (1, d1 ++ ' ' :: d2) := by
        rw [show String.toList "." = ['.'] from rfl]
        exact replaceCount_dot d1 d2 (hnotmem '.' (by decide)).1 (hnotmem '.' (by decide)).2
      simp only [hdotstep, List.nil_append, List.replicate_one]
      exact tokops_foldl_nooccur opTokensPost [String.toList "."] (d1 ++ ' ' :: d2)
        (fun t ht => headNotDigitSpace_ne_nil t (opTokensPost_head t ht))
        (fun t ht => headNotDigitSpace_nooccur _ hs9 t (opTokensPost_head t ht))
    have hident : findIdentifiers (d1 ++ ' ' :: d2) = [] := by
      apply identsAux_none
      intro c hc
      rcases hs9 c hc with h | h
      · exact digit_not_identStart c h
      · rw [h]; decide
    have hnum : findNumbers (d1 ++ ' ' :: d2) = [d1, d2] := by
      unfold findNumbers
      exact numsAux_digits_pair d1 d2 h1 h2 hd1 hd2 _
        (by simp only [List.length_append, List.length_cons]; omega)
    simp only [tokenize_source, hstrip, hops, hident, hnum, List.nil_append]

/-- Witness for the amended C8 at the literals `3` and `3.14`. -/
theorem claim_C8_amended_witness :
    tokenize_source (String.toList "3") = ([], [String.toList "3"])
    ∧ tokenize_source (String.toList "3" ++ '.' :: String.toList "14")
        = ([String.toList "."], [String.toList "3", String.toList "14"]) :=
  claim_C8_amended (String.toList "3") (String.toList "14") (by decide) (by decide)
    (by decide) (by decide)
